import Mathlib

/-!
Verification development for the monofonic initial-conditions generator
(`src/ic_generator.cc`, `src/main.cc`).  Field values are modelled as exact
complex rationals; per-mode and per-point formulas of the pipeline are
embedded as Lean functions and checked against the specification.
-/

/-- Complex numbers with rational components, modelling the `ccomplex_t`
values manipulated by the pipeline at a single grid point or mode. -/
@[ext]
structure Cplx where
  re : ℚ
  im : ℚ
  deriving DecidableEq, Repr

namespace Cplx

def add (z w : Cplx) : Cplx := ⟨z.re + w.re, z.im + w.im⟩
def neg (z : Cplx) : Cplx := ⟨-z.re, -z.im⟩
def sub (z w : Cplx) : Cplx := ⟨z.re - w.re, z.im - w.im⟩
def mul (z w : Cplx) : Cplx := ⟨z.re * w.re - z.im * w.im, z.re * w.im + z.im * w.re⟩

/-- Complex conjugate, modelling `std::conj`. -/
def conj (z : Cplx) : Cplx := ⟨z.re, -z.im⟩

/-- Squared modulus `|z|²` (real part squared plus imaginary part squared). -/
def normSq (z : Cplx) : ℚ := z.re * z.re + z.im * z.im

/-- Complex inverse, `z⁻¹ = conj z / |z|²`, with `0⁻¹ = 0` (total, as ℚ). -/
def inv (z : Cplx) : Cplx := ⟨z.re / normSq z, -z.im / normSq z⟩

def div (z w : Cplx) : Cplx := mul z (inv w)

/-- Embedding of a real (here: rational) scalar, modelling implicit
`double → ccomplex_t` conversion in mixed products. -/
def realC (r : ℚ) : Cplx := ⟨r, 0⟩

/-- The imaginary unit `ccomplex_t(0.0,1.0)`. -/
def I : Cplx := ⟨0, 1⟩

instance : Add Cplx := ⟨add⟩
instance : Neg Cplx := ⟨neg⟩
instance : Sub Cplx := ⟨sub⟩
instance : Mul Cplx := ⟨mul⟩
instance : Inv Cplx := ⟨inv⟩
instance : Div Cplx := ⟨div⟩
instance : Zero Cplx := ⟨⟨0, 0⟩⟩
instance : One Cplx := ⟨⟨1, 0⟩⟩

@[simp] theorem add_re (z w : Cplx) : (z + w).re = z.re + w.re := rfl
@[simp] theorem add_im (z w : Cplx) : (z + w).im = z.im + w.im := rfl
@[simp] theorem neg_re (z : Cplx) : (-z).re = -z.re := rfl
@[simp] theorem neg_im (z : Cplx) : (-z).im = -z.im := rfl
@[simp] theorem sub_re (z w : Cplx) : (z - w).re = z.re - w.re := rfl
@[simp] theorem sub_im (z w : Cplx) : (z - w).im = z.im - w.im := rfl
@[simp] theorem mul_re (z w : Cplx) : (z * w).re = z.re * w.re - z.im * w.im := rfl
@[simp] theorem mul_im (z w : Cplx) : (z * w).im = z.re * w.im + z.im * w.re := rfl
@[simp] theorem conj_re (z : Cplx) : (conj z).re = z.re := rfl
@[simp] theorem conj_im (z : Cplx) : (conj z).im = -z.im := rfl
@[simp] theorem inv_re (z : Cplx) : (z⁻¹).re = z.re / normSq z := rfl
@[simp] theorem inv_im (z : Cplx) : (z⁻¹).im = -z.im / normSq z := rfl
@[simp] theorem realC_re (r : ℚ) : (realC r).re = r := rfl
@[simp] theorem realC_im (r : ℚ) : (realC r).im = 0 := rfl
@[simp] theorem I_re : I.re = 0 := rfl
@[simp] theorem I_im : I.im = 1 := rfl
@[simp] theorem zero_re : (0 : Cplx).re = 0 := rfl
@[simp] theorem zero_im : (0 : Cplx).im = 0 := rfl
@[simp] theorem one_re : (1 : Cplx).re = 1 := rfl
@[simp] theorem one_im : (1 : Cplx).im = 0 := rfl

theorem div_def (z w : Cplx) : z / w = z * w⁻¹ := rfl

/-- Division of a purely real complex by a purely real complex is componentwise
rational division (holds also when the denominator vanishes). -/
theorem real_div_real (a s : ℚ) : realC a / realC s = realC (a / s) := by
  by_cases hs : s = 0
  · subst hs
    ext <;> simp [div_def, normSq]
  · ext <;> field_simp [div_def, normSq]

/-- Division by a purely real complex divides both components (holds also when
the denominator vanishes, both sides being zero). -/
theorem div_realC (z : Cplx) (s : ℚ) : z / realC s = ⟨z.re / s, z.im / s⟩ := by
  by_cases hs : s = 0
  · subst hs
    ext <;> simp [div_def, normSq]
  · ext <;> field_simp [div_def, normSq]

end Cplx

/-! ## Semiclassical (QPT) path, `ic_generator.cc` lines 316-345 -/

/-- The density contrast at a grid point (`ic_generator.cc:316-319`):
`rho = re(psi)² + im(psi)² - 1 = |psi|² - 1`. -/
def qptRho (p : Cplx) : ℚ := Cplx.normSq p - 1

/-- The k-space gradient of `psi` along axis `d` (`ic_generator.cc:333-335`):
each mode is multiplied by `ccomplex_t(0.0, k[idim])`, i.e. by `i·k_d`. -/
def qptGradMode (x : Cplx) (kd : ℚ) : Cplx := x * ⟨0, kd⟩

/-- The emitted QPT velocity value at a grid point (`ic_generator.cc:339-341`):
`std::real((conj(psi)*grad_psi - psi*conj(grad_psi)) / ccomplex_t(0.0, 2.0/hbar) / (1.0+rho))`. -/
def qptVel (psi gpsi : Cplx) (rho hbar : ℚ) : ℚ :=
  ((Cplx.conj psi * gpsi - psi * Cplx.conj gpsi) / (⟨0, 2 / hbar⟩ : Cplx)
      / Cplx.realC (1 + rho)).re

theorem sub_conj_mul (psi g : Cplx) :
    Cplx.conj psi * g - psi * Cplx.conj g = ⟨0, 2 * (Cplx.conj psi * g).im⟩ := by
  ext <;> simp <;> ring

theorem imag_div_imag (t h : ℚ) :
    (⟨0, 2 * t⟩ : Cplx) / (⟨0, 2 / h⟩ : Cplx) = Cplx.realC (h * t) := by
  by_cases hh : h = 0
  · subst hh
    ext <;> simp [Cplx.div_def, Cplx.normSq, Cplx.inv, Cplx.realC, Cplx.mul]
  · have h2 : (2 : ℚ) / h ≠ 0 := by positivity
    ext
    · show 0 * _ - 2 * t * (-(2 / h) / _) = h * t
      rw [Cplx.normSq]
      field_simp
      ring
    · show 0 * (-(2 / h) / _) + 2 * t * _ = 0
      show 0 * (-(2 / h) / _) + 2 * t * ((0:ℚ) / _) = 0
      simp

theorem qptVel_eq (psi g : Cplx) (rho hbar : ℚ) :
    qptVel psi g rho hbar = hbar * (Cplx.conj psi * g).im / (1 + rho) := by
  unfold qptVel
  rw [sub_conj_mul, imag_div_imag, Cplx.real_div_real]
  simp [mul_div_assoc]

/-- C1 (counterexample): at the grid point with `psi = 1`, gradient value
`i` (as produced by the `i·k_d` multiplier at `k_d = 1`), `rho = |psi|²-1 = 0`
and `hbar = 2`, the code emits velocity `2`, while the claimed formula
`Im(conj(psi)·grad psi)/(hbar·(1+rho))` gives `1/2`. -/
theorem qptVel_claim_cex :
    qptVel ⟨1, 0⟩ (qptGradMode ⟨1, 0⟩ 1) (qptRho ⟨1, 0⟩) 2 ≠
      (Cplx.conj ⟨1, 0⟩ * qptGradMode ⟨1, 0⟩ 1).im / (2 * (1 + qptRho ⟨1, 0⟩)) := by
  rw [qptVel_eq]
  simp [qptGradMode, qptRho, Cplx.normSq]
  norm_num

/-- C1 (amended): in the QPT path the emitted velocity component at each grid
point equals `hbar · Im(conj(psi)·grad_d psi) / (1+rho)` — the probability
current is multiplied by `hbar`, not divided by it — with
`rho = |psi|² - 1`, and `grad_d psi` is obtained by multiplying `psi` in
k-space by `i·k_d`. -/
theorem qptVel_matches_spec (psi g : Cplx) (hbar kd : ℚ) :
    qptVel psi g (qptRho psi) hbar
        = hbar * (Cplx.conj psi * g).im / (1 + qptRho psi)
      ∧ qptGradMode psi kd = Cplx.I * Cplx.realC kd * psi := by
  refine ⟨qptVel_eq psi g (qptRho psi) hbar, ?_⟩
  ext <;> simp [qptGradMode] <;> ring

/-! ## Emitted Lagrangian velocities, `ic_generator.cc` lines 439-462 -/

/-- Velocity mode emitted by the symplectic branch (`ic_generator.cc:457-458`):
`vunit*ccomplex_t(0.0,1.0)*(kk[idim]*phitot_v) + vfac1*A3[idim]->kelem(idx)`
with `phitot_v = vfac1*phi + vfac2*phi2`.  Unlike the non-symplectic branch,
no division by `boxlen` occurs. -/
def symplVelMode (vunit vfac1 vfac2 kd : ℚ) (phi phi2 Ad : Cplx) : Cplx :=
  Cplx.realC vunit * Cplx.I *
      (Cplx.realC kd * (Cplx.realC vfac1 * phi + Cplx.realC vfac2 * phi2))
    + Cplx.realC vfac1 * Ad

/-- The symplectic velocity formula as the specification words it:
`V_d(k) = i·k_d·(v_f1·phi + v_f2·phi2)/L + v_f1·A[d](k)`, the gradient part
divided by the box length `L`. -/
def symplVelSpec (vfac1 vfac2 kd boxlen : ℚ) (phi phi2 Ad : Cplx) : Cplx :=
  Cplx.I * Cplx.realC kd * (Cplx.realC vfac1 * phi + Cplx.realC vfac2 * phi2)
      / Cplx.realC boxlen
    + Cplx.realC vfac1 * Ad

/-- C2 (counterexample): with unit velocity conversion (`vunit = 1`),
`v_f1 = 1`, `v_f2 = 0`, `k_d = 1`, box length `L = 2`, `phi = 1`,
`phi2 = A[d] = 0`, the code emits `i` while the claimed formula with its
division by `L` gives `i/2`. -/
theorem symplVel_claim_cex :
    symplVelMode 1 1 0 1 ⟨1, 0⟩ 0 0 ≠ symplVelSpec 1 0 1 2 ⟨1, 0⟩ 0 0 := by
  intro h
  have him := congrArg Cplx.im h
  rw [symplVelSpec, Cplx.div_realC] at him
  norm_num [symplVelMode] at him

/-- C2 (amended): in symplectic mode the emitted velocity mode is
`V_d(k) = vunit·i·k_d·(v_f1·phi + v_f2·phi2) + v_f1·A[d](k)`: the gradient
part is *not* divided by the box length `L` (unlike the non-symplectic
branch), and the `A[d]` term enters without a `k` factor and without the
velocity-unit factor. -/
theorem symplVel_matches_spec (vunit vfac1 vfac2 kd : ℚ) (phi phi2 Ad : Cplx) :
    symplVelMode vunit vfac1 vfac2 kd phi phi2 Ad
      = Cplx.I * Cplx.realC (vunit * kd)
          * (Cplx.realC vfac1 * phi + Cplx.realC vfac2 * phi2)
        + Cplx.realC vfac1 * Ad := by
  ext <;> simp [symplVelMode] <;> ring

/-! ## 3LPT terms, `ic_generator.cc` lines 182-223 and `main.cc` lines 218-274

The dealiased convolver multiplies derivative fields pointwise in real space;
each primitive call therefore contributes, at every point, the product of the
requested Hessian values, and the caller-chosen writer folds it into the
destination.  We model the Hessian fields of `phi` and `phi2` at one point as
functions `Fin 3 → Fin 3 → ℚ` and embed the exact writer sequences. -/

/-- Modelled from the spec: `apply_InverseLaplacian` lives in `grid_fft.hh`,
which is not part of the two sources; spec §4.2 defines it in k-space as
`G[k] ← −G[k]/|k|²` for `k ≠ 0` and `G[0] ← 0`. -/
def invLaplacianMult (ksq g : ℚ) : ℚ := if ksq = 0 then 0 else -g / ksq

/-- The combination accumulated into `A3[idim]` by the four convolver calls of
`ic_generator.cc:216-219` (with `dp = (d+1)%3`, `dpp = (d+2)%3`):
assign `H2(d,dp)·H(d,dpp)`; subtract `H2(d,dpp)·H(d,dp)`; add
`H(dp,dpp)·(H2(dp,dp)−H2(dpp,dpp))`; subtract `H2(dp,dpp)·(H(dp,dp)−H(dpp,dpp))`. -/
def A3comboIC (H H2 : Fin 3 → Fin 3 → ℚ) (d : Fin 3) : ℚ :=
  let dp := d + 1
  let dpp := d + 2
  let s1 := H2 d dp * H d dpp
  let s2 := s1 - H2 d dpp * H d dp
  let s3 := s2 + H dp dpp * (H2 dp dp - H2 dpp dpp)
  s3 - H2 dp dpp * (H dp dp - H dpp dpp)

/-- The combination accumulated into `A3[idim]` by `main.cc:251-254`: the same
four calls but with the roles of `phi` and `phi2` exchanged in every slot. -/
def A3comboMain (H H2 : Fin 3 → Fin 3 → ℚ) (d : Fin 3) : ℚ :=
  let dp := d + 1
  let dpp := d + 2
  let s1 := H d dp * H2 d dpp
  let s2 := s1 - H d dpp * H2 d dp
  let s3 := s2 + H2 dp dpp * (H dp dp - H dpp dpp)
  s3 - H dp dpp * (H2 dp dp - H2 dpp dpp)

/-- The transverse-term combination exactly as the specification words it:
`φ₂_{,d,d'}·φ_{,d,d''} − φ₂_{,d,d''}·φ_{,d,d'}
 + (φ_{,d',d''}·(φ₂_{,d',d'}−φ₂_{,d'',d''}) − φ₂_{,d',d''}·(φ_{,d',d'}−φ_{,d'',d''}))`. -/
def A3comboSpec (H H2 : Fin 3 → Fin 3 → ℚ) (d : Fin 3) : ℚ :=
  H2 d (d + 1) * H d (d + 2) - H2 d (d + 2) * H d (d + 1)
    + (H (d + 1) (d + 2) * (H2 (d + 1) (d + 1) - H2 (d + 2) (d + 2))
       - H2 (d + 1) (d + 2) * (H (d + 1) (d + 1) - H (d + 2) (d + 2)))

/-- A Hessian-value assignment used as a counterexample input: only the
`(0,2)` entry of `Hess phi` is nonzero. -/
def cexHphi : Fin 3 → Fin 3 → ℚ := fun i j => if i = 0 ∧ j = 2 then 1 else 0

/-- A Hessian-value assignment used as a counterexample input: only the
`(0,1)` entry of `Hess phi2` is nonzero. -/
def cexHphi2 : Fin 3 → Fin 3 → ℚ := fun i j => if i = 0 ∧ j = 1 then 1 else 0

/-- C3 (counterexample): with `Hess phi` supported on `(0,2)` and `Hess phi2`
supported on `(0,1)`, the `A3[0]` combination of `main.cc:251-254` is `-1`
while the claimed operand assignment yields `+1`: `main.cc` does not use the
claimed assignment of `phi` and `phi2` to the operand slots. -/
theorem A3_claim_cex : A3comboMain cexHphi cexHphi2 0 ≠ A3comboSpec cexHphi cexHphi2 0 := by
  norm_num [A3comboMain, A3comboSpec, cexHphi, cexHphi2, Fin.ext_iff]

/-- C3 (amended): for every axis `d` with cyclic companions `d' = (d+1) mod 3`
and `d'' = (d+2) mod 3`, the combination fed to the inverse Laplacian for
`A3[d]` in `ic_generator.cc:216-220` is exactly the claimed one; in
`main.cc:251-255` the roles of `phi` and `phi2` are exchanged in every operand
slot, which yields the negation of the claimed combination. -/
theorem A3_operand_assignment (H H2 : Fin 3 → Fin 3 → ℚ) (d : Fin 3) (ksq : ℚ) :
    A3comboIC H H2 d = A3comboSpec H H2 d
      ∧ invLaplacianMult ksq (A3comboIC H H2 d)
          = invLaplacianMult ksq (A3comboSpec H H2 d)
      ∧ A3comboMain H H2 d = -A3comboSpec H H2 d := by
  refine ⟨?_, ?_, ?_⟩
  · unfold A3comboIC A3comboSpec
    ring
  · unfold A3comboIC A3comboSpec
    ring_nf
  · unfold A3comboMain A3comboSpec
    ring

/-- The combination accumulated into `phi3a` by the five triple-Hessian
convolver calls of `ic_generator.cc:187-191` (identically `main.cc:224-228`):
assign `H(0,0)·H(1,1)·H(2,2)`; add twice `H(0,1)·H(0,2)·H(1,2)`; subtract
`H(1,2)·H(1,2)·H(0,0)`; subtract `H(0,2)·H(0,2)·H(1,1)`; subtract
`H(0,1)·H(0,1)·H(2,2)`. -/
def phi3aCombo (H : Fin 3 → Fin 3 → ℚ) : ℚ :=
  let s1 := H 0 0 * H 1 1 * H 2 2
  let s2 := s1 + 2 * (H 0 1 * H 0 2 * H 1 2)
  let s3 := s2 - H 1 2 * H 1 2 * H 0 0
  let s4 := s3 - H 0 2 * H 0 2 * H 1 1
  s4 - H 0 1 * H 0 1 * H 2 2

/-- The `φ₃ₐ` combination exactly as the specification's formula block words
it: `φ_{,00}·φ_{,11}·φ_{,22} + 2·φ_{,01}·φ_{,02}·φ_{,12} − φ_{,12}²·φ_{,00}
− φ_{,02}²·φ_{,11} − φ_{,01}²·φ_{,22}`. -/
def phi3aSpecCombo (H : Fin 3 → Fin 3 → ℚ) : ℚ :=
  H 0 0 * H 1 1 * H 2 2 + 2 * (H 0 1 * H 0 2 * H 1 2)
    - H 1 2 ^ 2 * H 0 0 - H 0 2 ^ 2 * H 1 1 - H 0 1 ^ 2 * H 2 2

/-- The value the code leaves in a `phi3a` mode: the combination followed by
`apply_InverseLaplacian` (`ic_generator.cc:192`, `main.cc:229`); `c` stands
for the k-mode of the assembled combination, `ksq` for `|k|²`. -/
def phi3aModeAfterStep (ksq c : ℚ) : ℚ := invLaplacianMult ksq c

/-- The identity Hessian assignment, a counterexample input for C4. -/
def cexHdiag : Fin 3 → Fin 3 → ℚ := fun i j => if i = j then 1 else 0

/-- C4 (counterexample): for the identity Hessian assignment the assembled
combination is `1`; on a mode with `|k|² = 1` the code stores
`invLaplacian(1) = -1`, not the raw combination `1`: an inverse Laplacian *is*
applied to `phi3a`, contrary to the claim. -/
theorem phi3a_claim_cex :
    phi3aModeAfterStep 1 (phi3aCombo cexHdiag) ≠ phi3aCombo cexHdiag := by
  norm_num [phi3aModeAfterStep, phi3aCombo, invLaplacianMult, cexHdiag, Fin.ext_iff]

/-- C4 (amended): after the 3a step (`order ≥ 3`, non-symplectic), `phi3a`
holds the *inverse Laplacian* of
`φ_{,00}·φ_{,11}·φ_{,22} + 2·φ_{,01}·φ_{,02}·φ_{,12} − φ_{,12}²·φ_{,00}
− φ_{,02}²·φ_{,11} − φ_{,01}²·φ_{,22}`, assembled from the five
triple-Hessian convolver products of `phi`; the code applies
`apply_InverseLaplacian` to this combination (`ic_generator.cc:192`,
`main.cc:229`), unlike what the spec's formula block shows for `φ₃ₐ`. -/
theorem phi3a_is_invLaplacian_of_combo (H : Fin 3 → Fin 3 → ℚ) (ksq : ℚ) :
    phi3aCombo H = phi3aSpecCombo H
      ∧ phi3aModeAfterStep ksq (phi3aCombo H)
          = invLaplacianMult ksq (phi3aSpecCombo H) := by
  have hc : phi3aCombo H = phi3aSpecCombo H := by
    unfold phi3aCombo phi3aSpecCombo
    ring
  exact ⟨hc, by rw [phi3aModeAfterStep, hc]⟩

/-! ## 1LPT potential, `ic_generator.cc` lines 46 and 127-136 -/

/-- The noise-fixing step (`ic_generator.cc:131`):
`if (bDoFixing) x = (std::abs(x) != 0.0) ? x / std::abs(x) : x;`.
The modulus `std::abs(x)` is a real intermediate; it is passed as a parameter
`m`, which callers constrain by `m·m = |x|²` (and `0 ≤ m`) where needed. -/
def fixNoise (doFixing : Bool) (x : Cplx) (m : ℚ) : Cplx :=
  if doFixing then (if m ≠ 0 then x / Cplx.realC m else x) else x

/-- One mode of the 1LPT potential map (`ic_generator.cc:129-134`): the
(optionally fixed) noise value is scaled by the amplitude
(`delta = x * GetAmplitude(kmod, total)`) and the mode is set to
`-delta / (kmod*kmod) / volfac`.  `amp` stands for the amplitude value and
`ksq` for `kmod*kmod`. -/
def phi1Mode (doFixing : Bool) (x : Cplx) (m amp ksq volfac : ℚ) : Cplx :=
  -(fixNoise doFixing x m * Cplx.realC amp) / Cplx.realC ksq / Cplx.realC volfac

/-- The squared wavevector of the integer mode `n`: `|k|² = κ²·(n₁²+n₂²+n₃²)`
with the k-grid constant `κ = 2π/L` (spec §3).  Only `|k|²` enters the mode
map, so `κ` is carried as an abstract parameter. -/
def kvecSq (kappa : ℚ) (n : ℤ × ℤ × ℤ) : ℚ :=
  (kappa * n.1) ^ 2 + (kappa * n.2.1) ^ 2 + (kappa * n.2.2) ^ 2

/-- The 1LPT potential field after `zero_DC_mode` (`ic_generator.cc:127-136`):
every mode is set by the k-dependent map, then the DC mode `(0,0,0)` is set to
zero.  `noise` is the white-noise field, `mAbs n` the modulus of `noise n`,
and `amp` the amplitude callback as a function of `|k|²`. -/
def phi1Field (doFixing : Bool) (noise : ℤ × ℤ × ℤ → Cplx) (mAbs : ℤ × ℤ × ℤ → ℚ)
    (amp : ℚ → ℚ) (kappa volfac : ℚ) (n : ℤ × ℤ × ℤ) : Cplx :=
  if n = (0, 0, 0) then 0
  else phi1Mode doFixing (noise n) (mAbs n) (amp (kvecSq kappa n)) (kvecSq kappa n) volfac

/-- The base of the volume factor as the code computes it
(`ic_generator.cc:46`, `main.cc:110`): `boxlen / ngrid / 2.0 / M_PI`; the code
raises this base to the power `1.5 = 3/2`. -/
def volfacBase (boxlen ngrid piv : ℚ) : ℚ := boxlen / ngrid / 2 / piv

theorem chain_div_realC (z : Cplx) (a b : ℚ) :
    z / Cplx.realC a / Cplx.realC b = z / Cplx.realC (a * b) := by
  rw [Cplx.div_realC, Cplx.div_realC, Cplx.div_realC]
  ext <;> simp [div_div]

/-- C5: in the 1LPT step, every nonzero mode is set to
`-(x'·P̂)/(|k|²·V_f)` where `x'` is the (optionally fixed) noise value, the
DC mode is set to zero afterwards, and the volume factor's base
`boxlen/ngrid/2/π` equals `L/(N·(2π))` (the code raises it to `3/2`). -/
theorem phi1_mode_formula (doFixing : Bool) (noise : ℤ × ℤ × ℤ → Cplx)
    (mAbs : ℤ × ℤ × ℤ → ℚ) (amp : ℚ → ℚ) (kappa volfac : ℚ) (n : ℤ × ℤ × ℤ)
    (hn : n ≠ (0, 0, 0)) :
    phi1Field doFixing noise mAbs amp kappa volfac n
        = -(fixNoise doFixing (noise n) (mAbs n)
              * Cplx.realC (amp (kvecSq kappa n)))
            / Cplx.realC (kvecSq kappa n * volfac)
      ∧ phi1Field doFixing noise mAbs amp kappa volfac (0, 0, 0) = 0
      ∧ ∀ boxlen ngrid piv : ℚ,
          volfacBase boxlen ngrid piv = boxlen / (ngrid * (2 * piv)) := by
  refine ⟨?_, by simp [phi1Field], ?_⟩
  · rw [phi1Field, if_neg hn, phi1Mode]
    exact chain_div_realC _ _ _
  · intro boxlen ngrid piv
    rw [volfacBase]
    ring

/-- C5 (witness): the 1LPT mode formula evaluated at the concrete mode
`(1,0,0)` with unit noise, identity amplitude and unit factors. -/
theorem phi1_mode_formula_witness :
    phi1Field false (fun _ => ⟨1, 0⟩) (fun _ => 1) (fun q => q) 1 1 (1, 0, 0)
        = -(fixNoise false ⟨1, 0⟩ 1 * Cplx.realC (kvecSq 1 (1, 0, 0)))
            / Cplx.realC (kvecSq 1 (1, 0, 0) * 1)
      ∧ phi1Field false (fun _ => ⟨1, 0⟩) (fun _ => 1) (fun q => q) 1 1 (0, 0, 0) = 0
      ∧ ∀ boxlen ngrid piv : ℚ,
          volfacBase boxlen ngrid piv = boxlen / (ngrid * (2 * piv)) :=
  phi1_mode_formula false (fun _ => ⟨1, 0⟩) (fun _ => 1) (fun q => q) 1 1 (1, 0, 0)
    (by decide)

/-! ## Noise fixing, `ic_generator.cc` lines 48 and 131 -/

theorem normSq_div_realC (x : Cplx) (m : ℚ) :
    Cplx.normSq (x / Cplx.realC m) = Cplx.normSq x / (m * m) := by
  rw [Cplx.div_realC]
  unfold Cplx.normSq
  rw [div_mul_div_comm, div_mul_div_comm, div_add_div_same]

/-- C9 (counterexample): the noise value `0` (whose modulus is `0`) is *not*
replaced by a phase of unit modulus: the guarded fixing leaves it at `0`,
whose squared modulus is `0`, not `1`.  So not every noise mode ends up with
`|x_k| = 1` under fixing. -/
theorem fixing_claim_cex :
    (0 : ℚ) * 0 = Cplx.normSq ⟨0, 0⟩
      ∧ fixNoise true ⟨0, 0⟩ 0 = (⟨0, 0⟩ : Cplx)
      ∧ Cplx.normSq (fixNoise true ⟨0, 0⟩ 0) ≠ 1 := by
  refine ⟨by norm_num [Cplx.normSq], by simp [fixNoise], ?_⟩
  simp [fixNoise, Cplx.normSq]

/-- C9 (amended): when `setup.DoFixing` is true, every noise mode with
*nonzero* modulus is replaced by its phase `x/|x|`, which has unit modulus,
before the amplitude is applied; a zero mode is left unchanged by the guard;
when the key is absent or false (the default), modes keep their Gaussian
values. -/
theorem fixing_phase_replacement (x : Cplx) (m : ℚ)
    (hm : m * m = Cplx.normSq x) (hx : Cplx.normSq x ≠ 0) :
    fixNoise true x m = x / Cplx.realC m
      ∧ Cplx.normSq (fixNoise true x m) = 1
      ∧ ∀ (y : Cplx) (mm : ℚ), fixNoise false y mm = y := by
  have hmne : m ≠ 0 := by
    intro h
    rw [h, mul_zero] at hm
    exact hx hm.symm
  have hfix : fixNoise true x m = x / Cplx.realC m := by
    simp [fixNoise, hmne]
  refine ⟨hfix, ?_, fun y mm => rfl⟩
  rw [hfix, normSq_div_realC, hm, div_self hx]

/-- C9 (witness): the amended fixing property evaluated at the concrete noise
value `3 + 4i`, whose modulus is `5`. -/
theorem fixing_phase_replacement_witness :
    fixNoise true ⟨3, 4⟩ 5 = (⟨3, 4⟩ : Cplx) / Cplx.realC 5
      ∧ Cplx.normSq (fixNoise true ⟨3, 4⟩ 5) = 1
      ∧ ∀ (y : Cplx) (mm : ℚ), fixNoise false y mm = y :=
  fixing_phase_replacement ⟨3, 4⟩ 5 (by norm_num [Cplx.normSq])
    (by norm_num [Cplx.normSq])

/-- C10: with fixing enabled, a mode whose noise value has modulus exactly
zero is left unchanged — the replacement `x/|x|` is guarded by
`std::abs(x) != 0.0`, so the phase replacement never divides by zero. -/
theorem fixing_zero_mode_guarded (x : Cplx) (m : ℚ)
    (hm : m * m = Cplx.normSq x) (h0 : Cplx.normSq x = 0) :
    fixNoise true x m = x := by
  have hmz : m = 0 := mul_self_eq_zero.mp (hm.trans h0)
  simp [fixNoise, hmz]

/-- C10 (witness): the guard evaluated at the zero noise value. -/
theorem fixing_zero_mode_guarded_witness :
    fixNoise true ⟨0, 0⟩ 0 = (⟨0, 0⟩ : Cplx) :=
  fixing_zero_mode_guarded ⟨0, 0⟩ 0 (by norm_num [Cplx.normSq])
    (by norm_num [Cplx.normSq])

/-! ## LPT order and symplectic override, `ic_generator.cc` lines 42-73,
166, 182 and 225 -/

/-- The configured LPT order (`ic_generator.cc:42`):
`GetValueSafe("setup","LPTorder",100)` — the configured value, or the
default `100` when the key is absent.  The code never clamps it. -/
def lptOrderRead (cfg : Option ℤ) : ℤ := cfg.getD 100

/-- The effective order named by the claim: `min(LPTorder, 3)`. -/
def lptOrderClamped (o : ℤ) : ℤ := min o 3

/-- The symplectic override (`ic_generator.cc:54-57`): when `SymplecticPT` is
set and the order is not 2, a warning is logged and the order is overwritten
with 2.  Returns the resulting order and whether the warning was emitted. -/
def symplecticAdjust (o : ℤ) (sympl : Bool) : ℤ × Bool :=
  if sympl = true ∧ o ≠ 2 then (2, true) else (o, false)

/-- The growth coefficients `(g1, g2, g3a, g3b, g3c)`
(`ic_generator.cc:65-69`, `main.cc:150-154`): `g1 = -D` unconditionally, the
higher ones gated by `LPTorder > 1` resp. `LPTorder > 2`. -/
def growthCoeffs (o : ℤ) (D : ℚ) : ℚ × ℚ × ℚ × ℚ × ℚ :=
  (-D,
   if o > 1 then -3 / 7 * D ^ 2 else 0,
   if o > 2 then -1 / 3 * D ^ 3 else 0,
   if o > 2 then 10 / 21 * D ^ 3 else 0,
   if o > 2 then -1 / 7 * D ^ 3 else 0)

/-- The gates deciding which cascade terms are computed: `phi2` when
`LPTorder > 1 || SymplecticPT` (`ic_generator.cc:166`); the 3LPT terms
`phi3a`, `phi3b`, `A3` when `LPTorder > 2 && !SymplecticPT`
(`ic_generator.cc:182`); the symplectic `vNLO` term when `SymplecticPT`
(`ic_generator.cc:225`). -/
def cascadeGates (o : ℤ) (sympl : Bool) : Bool × Bool × Bool :=
  (decide (o > 1) || sympl, decide (o > 2) && !sympl, sympl)

/-- C7 (counterexample): for the configured value `0` the claimed effective
order `min(0,3) = 0` does not lie in `{1,2,3}`; the code performs no clamping
and an order of `0` simply behaves like order `1`. -/
theorem lptOrder_claim_cex :
    ¬(lptOrderClamped (lptOrderRead (some 0)) = 1
      ∨ lptOrderClamped (lptOrderRead (some 0)) = 2
      ∨ lptOrderClamped (lptOrderRead (some 0)) = 3) := by
  norm_num [lptOrderClamped, lptOrderRead]

/-- C7 (amended): for every configured `setup.LPTorder ≥ 1` — in particular
the absent key, which reads as the high default `100` — the clamped order
`min(LPTorder, 3)` lies in `{1,2,3}`, and the run's computed-term gates and
growth coefficients equal those of order `min(LPTorder, 3)`.  (Configured
orders below 1 behave like order 1 but fall outside the claim's `min`
formula.) -/
theorem lptOrder_effective (cfg : Option ℤ) (D : ℚ)
    (h1 : 1 ≤ lptOrderRead cfg) :
    (lptOrderClamped (lptOrderRead cfg) = 1
        ∨ lptOrderClamped (lptOrderRead cfg) = 2
        ∨ lptOrderClamped (lptOrderRead cfg) = 3)
      ∧ cascadeGates (lptOrderRead cfg) false
          = cascadeGates (lptOrderClamped (lptOrderRead cfg)) false
      ∧ growthCoeffs (lptOrderRead cfg) D
          = growthCoeffs (lptOrderClamped (lptOrderRead cfg)) D
      ∧ lptOrderRead none = 100 := by
  have e1 : (lptOrderRead cfg > 1) = (lptOrderClamped (lptOrderRead cfg) > 1) :=
    propext (by unfold lptOrderClamped; omega)
  have e2 : (lptOrderRead cfg > 2) = (lptOrderClamped (lptOrderRead cfg) > 2) :=
    propext (by unfold lptOrderClamped; omega)
  refine ⟨by unfold lptOrderClamped; omega, ?_, ?_, rfl⟩
  · unfold cascadeGates
    simp only [e1, e2]
  · unfold growthCoeffs
    simp only [e1, e2]

/-- C7 (witness): the amended property at the absent key (the default). -/
theorem lptOrder_effective_witness :
    (lptOrderClamped (lptOrderRead none) = 1
        ∨ lptOrderClamped (lptOrderRead none) = 2
        ∨ lptOrderClamped (lptOrderRead none) = 3)
      ∧ cascadeGates (lptOrderRead none) false
          = cascadeGates (lptOrderClamped (lptOrderRead none)) false
      ∧ growthCoeffs (lptOrderRead none) 1
          = growthCoeffs (lptOrderClamped (lptOrderRead none)) 1
      ∧ lptOrderRead none = 100 :=
  lptOrder_effective none 1 (by norm_num [lptOrderRead])

/-- C8: whenever `SymplecticPT` is true, a configured order other than 2
triggers the warning and is overwritten with 2; the resulting order is always
2, and the 3LPT gate `LPTorder > 2 && !SymplecticPT` is false, so the 3LPT
longitudinal and transverse terms are never computed in symplectic mode. -/
theorem symplectic_forces_order_two (o : ℤ) (s : Bool) (hs : s = true) :
    (o ≠ 2 → symplecticAdjust o s = (2, true))
      ∧ (symplecticAdjust o s).1 = 2
      ∧ (cascadeGates (symplecticAdjust o s).1 s).2.1 = false := by
  subst hs
  by_cases ho : o = 2
  · subst ho
    simp [symplecticAdjust, cascadeGates]
  · simp [symplecticAdjust, cascadeGates, ho]

/-- C8 (witness): the override at configured order 5 with the flag set. -/
theorem symplectic_forces_order_two_witness :
    ((5 : ℤ) ≠ 2 → symplecticAdjust 5 true = (2, true))
      ∧ (symplecticAdjust 5 true).1 = 2
      ∧ (cascadeGates (symplecticAdjust 5 true).1 true).2.1 = false :=
  symplectic_forces_order_two 5 true rfl

/-! ## BCC particle allocation and IDs, `ic_generator.cc` lines 354-380 and
416-427 -/

/-- Modelled from the spec: `Grid_FFT::local_size()` lives in `grid_fft.hh`,
which is not among the sources; per spec §3 the rank-local base particle
count is `N_loc·N²`, the number of locally owned lattice cells. -/
def gridLocalSize (N nloc : ℕ) : ℕ := nloc * N ^ 2

/-- The per-rank particle allocation with BCC (`ic_generator.cc:361-362`):
`particles.allocate(2*num_p_in_load)` with `num_p_in_load = phi.local_size()`. -/
def bccAlloc (N nloc : ℕ) : ℕ := 2 * gridLocalSize N nloc

/-- Modelled from the spec: `particle_container::get_local_offset()` is not
among the sources; per spec §3 the local offset in IDs is built from
`local_offset·N²`, the number of grid cells owned by lower ranks.  `nlocs`
lists the slab heights `N_loc` of all ranks in rank order. -/
def particleLocalOffset (N : ℕ) (nlocs : List ℕ) (r : ℕ) : ℕ :=
  (nlocs.take r).sum * N ^ 2

/-- The first particle ID of rank `r` with BCC (`ic_generator.cc:367`):
`ipcount0 = 2 * particles.get_local_offset()`. -/
def bccIdStart (N : ℕ) (nlocs : List ℕ) (r : ℕ) : ℕ :=
  2 * particleLocalOffset N nlocs r

/-- The ID stored in rank-local slot `s` (`ic_generator.cc:368-379`): the ID
loop writes `ipcount + ipcount0` with `ipcount` visiting `0,1,2,…` in order
(two consecutive slots per cell under BCC), so slot `s` receives
`s + ipcount0`. -/
def bccIdOfSlot (N : ℕ) (nlocs : List ℕ) (r s : ℕ) : ℕ :=
  bccIdStart N nlocs r + s

/-- The first rank-local particle slot of the staggered (second BCC)
sublattice (`ic_generator.cc:416-419`, likewise `475-478` for velocities):
`ipcount0 = num_p_in_load`. -/
def staggeredSlotStart (N nloc : ℕ) : ℕ := gridLocalSize N nloc

theorem bccIdStart_mono (N : ℕ) (nlocs : List ℕ) {a b : ℕ} (h : a ≤ b) :
    bccIdStart N nlocs a ≤ bccIdStart N nlocs b := by
  unfold bccIdStart particleLocalOffset
  exact Nat.mul_le_mul_left 2
    (Nat.mul_le_mul_right _ (List.monotone_sum_take nlocs h))

theorem bccIdStart_succ (N : ℕ) (nlocs : List ℕ) (r : ℕ) (hr : r < nlocs.length) :
    bccIdStart N nlocs (r + 1)
      = bccIdStart N nlocs r + bccAlloc N (nlocs.get ⟨r, hr⟩) := by
  unfold bccIdStart particleLocalOffset bccAlloc gridLocalSize
  rw [List.sum_take_succ _ _ hr, List.get_eq_getElem]
  ring

theorem bccId_lt_start_of_rank_lt (N : ℕ) (nlocs : List ℕ) {r1 r2 s1 : ℕ}
    (hr1 : r1 < nlocs.length) (hlt : r1 < r2)
    (hs1 : s1 < bccAlloc N (nlocs.get ⟨r1, hr1⟩)) :
    bccIdOfSlot N nlocs r1 s1 < bccIdStart N nlocs r2 := by
  have hsucc := bccIdStart_succ N nlocs r1 hr1
  have hmono := bccIdStart_mono N nlocs (show r1 + 1 ≤ r2 from hlt)
  unfold bccIdOfSlot
  omega

/-- C6: with particle output and BCC, each rank allocates `2·N_loc·N²`
particle slots; rank `r` assigns IDs starting at `2·local_offset·N²`; the ID
ranges of consecutive ranks are contiguous; IDs of distinct slots (on any
ranks) are distinct; and the slots of the staggered sublattice occupy exactly
the upper half of the rank-local buffer, beginning at offset `N_loc·N²`. -/
theorem bcc_particle_ids (N : ℕ) (nlocs : List ℕ) :
    (∀ nloc, bccAlloc N nloc = 2 * nloc * N ^ 2)
      ∧ (∀ r, bccIdStart N nlocs r = 2 * (nlocs.take r).sum * N ^ 2)
      ∧ (∀ r (hr : r < nlocs.length),
          bccIdStart N nlocs (r + 1)
            = bccIdStart N nlocs r + bccAlloc N (nlocs.get ⟨r, hr⟩))
      ∧ (∀ r1 r2 s1 s2 (hr1 : r1 < nlocs.length) (hr2 : r2 < nlocs.length),
          s1 < bccAlloc N (nlocs.get ⟨r1, hr1⟩) →
          s2 < bccAlloc N (nlocs.get ⟨r2, hr2⟩) →
          ¬(r1 = r2 ∧ s1 = s2) →
          bccIdOfSlot N nlocs r1 s1 ≠ bccIdOfSlot N nlocs r2 s2)
      ∧ (∀ nloc c, c < gridLocalSize N nloc →
          gridLocalSize N nloc ≤ staggeredSlotStart N nloc + c
            ∧ staggeredSlotStart N nloc + c < bccAlloc N nloc) := by
  refine ⟨?_, ?_, fun r hr => bccIdStart_succ N nlocs r hr, ?_, ?_⟩
  · intro nloc
    unfold bccAlloc gridLocalSize
    ring
  · intro r
    unfold bccIdStart particleLocalOffset
    ring
  · intro r1 r2 s1 s2 hr1 hr2 hs1 hs2 hne
    rcases Nat.lt_trichotomy r1 r2 with h | h | h
    · have := bccId_lt_start_of_rank_lt N nlocs hr1 h hs1
      have h2 : bccIdStart N nlocs r2 ≤ bccIdOfSlot N nlocs r2 s2 :=
        Nat.le_add_right _ _
      omega
    · subst h
      have hs : s1 ≠ s2 := fun he => hne ⟨rfl, he⟩
      unfold bccIdOfSlot
      omega
    · have := bccId_lt_start_of_rank_lt N nlocs hr2 h hs2
      have h2 : bccIdStart N nlocs r1 ≤ bccIdOfSlot N nlocs r1 s1 :=
        Nat.le_add_right _ _
      omega
  · intro nloc c hc
    unfold staggeredSlotStart bccAlloc gridLocalSize at *
    omega

/-- C6 (witness): on a two-rank layout with `N = 2`, slab heights `[1, 2]`,
the last slot of rank 0 and the first slot of rank 1 receive distinct IDs. -/
theorem bcc_particle_ids_witness :
    bccIdOfSlot 2 [1, 2] 0 7 ≠ bccIdOfSlot 2 [1, 2] 1 0 :=
  (bcc_particle_ids 2 [1, 2]).2.2.2.1 0 1 7 0 (by decide) (by decide)
    (by decide) (by decide) (by decide)
